import Mathlib

/-!
# TodoList: `server/graph/helpers/encoding_helper.go`

A shallow embedding of the three helpers of `encoding_helper.go`
(`EscapeString`, `FormatCategoryIdsArray`, `SafeCategoryIds`) together with the
parts of the Go standard library they call (`unicode/utf8` and `strings`),
followed by the properties proved about them.

A Go `string` is an immutable sequence of bytes; it is embedded as a list of
natural numbers, each byte being a number below 256.  A Go `[]string` may be
`nil`; it is embedded as an `Option`, `none` being the `nil` slice.
-/

namespace TodoList

/-- A Go `string`: a sequence of bytes, not necessarily valid UTF-8.  A byte is
a natural number below 256. -/
abbrev GoString := List Nat

/-- A Go `[]string`; `none` is the `nil` slice, `some []` the empty non-nil slice. -/
abbrev StringSlice := Option (List GoString)

/-- Go `len` on a `[]string`: the `nil` slice has length 0. -/
def StringSlice.len : StringSlice → Nat
  | none => 0
  | some l => l.length

/-- The elements visited by `for i, id := range categoryIds`; none for `nil`. -/
def StringSlice.elems : StringSlice → List GoString
  | none => []
  | some l => l

/-! ## `unicode/utf8` -/

namespace utf8

/-- The constant `utf8.RuneError`, the replacement character U+FFFD. -/
def RuneError : Nat := 0xFFFD
/-- The constant `utf8.RuneSelf`: bytes below it are single-byte characters. -/
def RuneSelf : Nat := 0x80

def maskx : Nat := 0x3F
def mask2 : Nat := 0x1F
def mask3 : Nat := 0x0F
def mask4 : Nat := 0x07

/-- Lowest continuation byte. -/
def locb : Nat := 0x80
/-- Highest continuation byte. -/
def hicb : Nat := 0xBF

/-- Invalid first byte: size 1. -/
def xx : Nat := 0xF1
/-- ASCII first byte: size 1. -/
def as : Nat := 0xF0
/-- Accept range 0, size 2. -/
def s1 : Nat := 0x02
/-- Accept range 1, size 3. -/
def s2 : Nat := 0x13
/-- Accept range 0, size 3. -/
def s3 : Nat := 0x03
/-- Accept range 2, size 3. -/
def s4 : Nat := 0x23
/-- Accept range 3, size 4. -/
def s5 : Nat := 0x34
/-- Accept range 0, size 4. -/
def s6 : Nat := 0x04
/-- Accept range 4, size 4. -/
def s7 : Nat := 0x44

/-- The table `first [256]uint8`: information about the first byte of an
encoding, written row by row as ranges of the index. -/
def first (b : Nat) : Nat :=
  if b < 0x80 then as          -- 0x00-0x7F
  else if b < 0xC2 then xx     -- 0x80-0xBF, 0xC0, 0xC1
  else if b < 0xE0 then s1     -- 0xC2-0xDF
  else if b = 0xE0 then s2     -- 0xE0
  else if b < 0xED then s3     -- 0xE1-0xEC
  else if b = 0xED then s4     -- 0xED
  else if b < 0xF0 then s3     -- 0xEE, 0xEF
  else if b = 0xF0 then s5     -- 0xF0
  else if b < 0xF4 then s6     -- 0xF1-0xF3
  else if b = 0xF4 then s7     -- 0xF4
  else xx                      -- 0xF5-0xFF

/-- The struct `acceptRange`: the range of valid values for the second byte. -/
structure acceptRange where
  lo : Nat
  hi : Nat

/-- The table `acceptRanges [16]acceptRange`; entries 5 to 15 are zero values. -/
def acceptRanges (i : Nat) : acceptRange :=
  if i = 0 then ⟨locb, hicb⟩
  else if i = 1 then ⟨0xA0, hicb⟩
  else if i = 2 then ⟨locb, 0x9F⟩
  else if i = 3 then ⟨0x90, hicb⟩
  else if i = 4 then ⟨locb, 0x8F⟩
  else ⟨0, 0⟩

/-- Go `utf8.DecodeRuneInString`: the first rune of `s` and its width in bytes;
`(RuneError, 0)` for the empty string and `(RuneError, 1)` for an invalid
encoding. -/
def DecodeRuneInString (s : GoString) : Nat × Nat :=
  let n := s.length
  if n < 1 then (RuneError, 0)
  else
    let s0 := s.getD 0 0
    let x := first s0
    if x ≥ as then
      -- `mask` is all ones exactly when the low bit of `x` is set (`x = xx`)
      (if x % 2 = 1 then RuneError else s0, 1)
    else
      let sz := x &&& 7
      let accept := acceptRanges (x >>> 4)
      if n < sz then (RuneError, 1)
      else
        let b1 := s.getD 1 0
        if b1 < accept.lo ∨ accept.hi < b1 then (RuneError, 1)
        else if sz ≤ 2 then (((s0 &&& mask2) <<< 6) ||| (b1 &&& maskx), 2)
        else
          let b2 := s.getD 2 0
          if b2 < locb ∨ hicb < b2 then (RuneError, 1)
          else if sz ≤ 3 then
            (((s0 &&& mask3) <<< 12) ||| ((b1 &&& maskx) <<< 6) ||| (b2 &&& maskx), 3)
          else
            let b3 := s.getD 3 0
            if b3 < locb ∨ hicb < b3 then (RuneError, 1)
            else
              (((s0 &&& mask4) <<< 18) ||| ((b1 &&& maskx) <<< 12) |||
                ((b2 &&& maskx) <<< 6) ||| (b3 &&& maskx), 4)

/-- The loop of `utf8.ValidString`, on the unread part `s[i:]`.  The first
argument bounds the number of iterations; `ValidString` passes `len(s)`. -/
def ValidString.loop : Nat → GoString → Bool
  | _, [] => true
  | 0, _ :: _ => false
  | fuel + 1, si :: rest =>
    let s := si :: rest
    if si < RuneSelf then loop fuel rest
    else
      let x := first si
      if x = xx then false
      else
        let size := x &&& 7
        if size > s.length then false
        else
          let accept := acceptRanges (x >>> 4)
          let c1 := s.getD 1 0
          if c1 < accept.lo ∨ accept.hi < c1 then false
          else if size = 2 then loop fuel (s.drop size)
          else
            let c2 := s.getD 2 0
            if c2 < locb ∨ hicb < c2 then false
            else if size = 3 then loop fuel (s.drop size)
            else
              let c3 := s.getD 3 0
              if c3 < locb ∨ hicb < c3 then false
              else loop fuel (s.drop size)

/-- Go `utf8.ValidString`: whether `s` consists entirely of valid UTF-8-encoded runes.
The fast path that skips eight ASCII bytes at a time does what the loop does on
those bytes and is not modelled apart. -/
def ValidString (s : GoString) : Bool :=
  ValidString.loop s.length s

/-- The loop of `utf8.RuneCountInString` on the unread part of the string: every
step consumes one rune, an invalid byte counting as a rune of width 1. -/
def RuneCountInString.loop : Nat → GoString → Nat
  | _, [] => 0
  | 0, _ :: _ => 0
  | fuel + 1, c :: rest =>
    loop fuel ((c :: rest).drop (DecodeRuneInString (c :: rest)).2) + 1

/-- Go `utf8.RuneCountInString`: the number of runes in `s`. -/
def RuneCountInString (s : GoString) : Nat :=
  RuneCountInString.loop s.length s

/-! ### Auxiliary notions used in the proofs -/

/-- The size recorded in the table `first` for the first byte of `s`. -/
def encLen (s : GoString) : Nat := first (s.getD 0 0) &&& 7

/-- The string `s` begins with a well-formed multi-byte encoding: the checks
that `DecodeRuneInString` and `ValidString` both make after the ASCII case. -/
def Enc (s : GoString) : Prop :=
  first (s.getD 0 0) ≠ as ∧ first (s.getD 0 0) ≠ xx ∧ encLen s ≤ s.length ∧
  (acceptRanges (first (s.getD 0 0) >>> 4)).lo ≤ s.getD 1 0 ∧
  s.getD 1 0 ≤ (acceptRanges (first (s.getD 0 0) >>> 4)).hi ∧
  (3 ≤ encLen s → locb ≤ s.getD 2 0 ∧ s.getD 2 0 ≤ hicb) ∧
  (4 ≤ encLen s → locb ≤ s.getD 3 0 ∧ s.getD 3 0 ≤ hicb)

end utf8

/-! ## `strings` -/

namespace strings

open utf8

/-- The search of `strings.Index` from offset `i`, over the part `s[i:]`. -/
def Index.search (substr : GoString) : GoString → Nat → Int
  | [], i => if substr.isPrefixOf [] then (i : Int) else -1
  | c :: rest, i =>
    if substr.isPrefixOf (c :: rest) then (i : Int) else search substr rest (i + 1)

/-- Go `strings.Index`: the index of the first instance of `substr` in `s`, or -1.
The library picks a search algorithm by the lengths; all of them return the
first match, which is what the search here does. -/
def Index (s substr : GoString) : Int :=
  Index.search substr s 0

/-- The general loop of `strings.Count`: repeated `Index`, skipping each match. -/
def Count.loop (substr : GoString) : Nat → GoString → Nat → Nat
  | 0, _, n => n
  | fuel + 1, s, n =>
    let i := Index s substr
    if i = -1 then n
    else loop substr fuel (s.drop (i.toNat + substr.length)) (n + 1)

/-- Go `strings.Count`: the number of non-overlapping instances of `substr` in `s`. -/
def Count (s substr : GoString) : Nat :=
  if substr.length = 0 then RuneCountInString s + 1
  else if substr.length = 1 then s.count (substr.getD 0 0)   -- bytealg.CountString
  else Count.loop substr (s.length + 1) s 0

/-- The replacement loop of `strings.Replace`: `k` iterations remain, `i` is the
loop counter, `rest` is `s[start:]` and `b` the contents of the builder. -/
def Replace.loop (old new : GoString) : Nat → Nat → GoString → GoString → GoString
  | 0, _, rest, b => b ++ rest
  | k + 1, i, rest, b =>
    let j : Int :=
      if old.length = 0 then
        if i > 0 then ((DecodeRuneInString rest).2 : Int) else 0
      else Index rest old
    loop old new k (i + 1) (rest.drop (j.toNat + old.length)) (b ++ rest.take j.toNat ++ new)

/-- Go `strings.Replace`: `s` with the first `n` non-overlapping instances of `old`
replaced by `new`; all of them when `n < 0`. -/
def Replace (s old new : GoString) (n : Int) : GoString :=
  if old = new ∨ n = 0 then s
  else
    let m := Count s old
    if m = 0 then s
    else
      let n : Int := if n < 0 ∨ (m : Int) < n then (m : Int) else n
      Replace.loop old new n.toNat 0 s []

/-- Go `strings.ReplaceAll`: `Replace` without a limit. -/
def ReplaceAll (s old new : GoString) : GoString :=
  Replace s old new (-1)

/-- The first loop of `strings.ToValidUTF8`, `for i, c := range s`, on the part
`s[i:]`: the index of the first byte that decodes to `RuneError` with width 1,
if there is one. -/
def ToValidUTF8.scan : Nat → GoString → Nat → Option Nat
  | _, [], _ => none
  | 0, _ :: _, _ => none
  | fuel + 1, c0 :: rest, i =>
    let s := c0 :: rest
    let c := (DecodeRuneInString s).1
    let w := (DecodeRuneInString s).2
    if c ≠ RuneError then scan fuel (s.drop w) (i + w)
    else
      let wid := (DecodeRuneInString s).2
      if wid = 1 then some i
      else scan fuel (s.drop w) (i + w)

/-- The second loop of `strings.ToValidUTF8`, on the part `s[i:]`; `invalid`
tells whether the previous byte was from an invalid sequence and `b` is the
contents of the builder. -/
def ToValidUTF8.repair (replacement : GoString) : Nat → GoString → Bool → GoString → GoString
  | _, [], _, b => b
  | 0, _ :: _, _, b => b
  | fuel + 1, c :: rest, invalid, b =>
    let s := c :: rest
    if c < RuneSelf then repair replacement fuel rest false (b ++ [c])
    else
      let wid := (DecodeRuneInString s).2
      if wid = 1 then
        if !invalid then repair replacement fuel rest true (b ++ replacement)
        else repair replacement fuel rest invalid b
      else repair replacement fuel (s.drop wid) false (b ++ s.take wid)

/-- Go `strings.ToValidUTF8`: a copy of `s` with each run of invalid UTF-8 byte
sequences replaced by `replacement`. -/
def ToValidUTF8 (s replacement : GoString) : GoString :=
  match ToValidUTF8.scan s.length s 0 with
  | none => s    -- the builder was never grown: unchanged input
  | some i =>
    ToValidUTF8.repair replacement (s.drop i).length (s.drop i) false (s.take i)

/-- The replacement that `ReplaceAll` makes of one byte, for a one-byte `old`
(auxiliary notion used in the proofs). -/
def repl (q : Nat) (new : GoString) (b : Nat) : GoString := if b = q then new else [b]

/-- Go `strings.Join`: the elements, separated by `sep`. -/
def Join (elems : List GoString) (sep : GoString) : GoString :=
  match elems with
  | [] => []
  | [e] => e
  | e :: es => es.foldl (fun b s => b ++ sep ++ s) e

end strings

/-! ## `encoding_helper.go` -/

/-- Go `EscapeString` escapes special characters in a string for use in SurrealDB
queries: the string is made valid UTF-8, then every `'` is replaced by `\'`. -/
def EscapeString (s : GoString) : GoString :=
  let s := if !utf8.ValidString s then strings.ToValidUTF8 s [] else s
  strings.ReplaceAll s [0x27] [0x5C, 0x27]

/-- Go `FormatCategoryIdsArray` formats a slice of category IDs into a SurrealDB
array string. -/
def FormatCategoryIdsArray (categoryIds : StringSlice) : GoString :=
  if categoryIds.len = 0 then [0x5B, 0x5D]
  else
    let escapedCategoryIds := categoryIds.elems.map EscapeString
    [0x5B] ++ strings.Join escapedCategoryIds [0x2C, 0x20] ++ [0x5D]

/-- Go `SafeCategoryIds` ensures we always have a valid categoryIds slice. -/
def SafeCategoryIds (categoryIds : StringSlice) : StringSlice :=
  match categoryIds with
  | none => some []
  | some l => some l

/-! ## Notions of the specification -/

/-- The segmentation of a string by left-to-right decoding, on the unread part
of the string: each segment is the encoding of one character, or one byte at
which no well-formed encoding starts. -/
def runes.go : Nat → GoString → List GoString
  | _, [] => []
  | 0, _ :: _ => []
  | fuel + 1, c :: t =>
    let s := c :: t
    let w := (utf8.DecodeRuneInString s).2
    s.take w :: go fuel (s.drop w)

/-- The string `s` gone through character by character, from left to right. -/
def runes (s : GoString) : List GoString :=
  runes.go s.length s

/-- A segment is a well-formed encoded character when decoding it does not give
`(RuneError, 1)`, the result for an invalid encoding. -/
def wellFormed (seg : GoString) : Bool :=
  decide (utf8.DecodeRuneInString seg ≠ (utf8.RuneError, 1))

/-- The string `s` with every byte that is not part of a well-formed encoded
character deleted, the well-formed characters kept in their order. -/
def dropMalformed (s : GoString) : GoString :=
  ((runes s).filter wellFormed).flatten

/-- The escaping described character by character: backslash, single-quote for a
single-quote, the character itself for every other character. -/
def escapeByChars (s : GoString) : GoString :=
  (runes s).flatMap (fun ch => if ch = [0x27] then [0x5C, 0x27] else ch)

/-- Every single-quote byte of `out` is immediately preceded by a backslash byte. -/
def QuotesEscaped (out : GoString) : Prop :=
  ∀ i : Nat, out[i]? = some 0x27 → 0 < i ∧ out[i - 1]? = some 0x5C

/-- The escaping of one byte: `\'` for `'`, the byte itself otherwise. -/
def escByte (b : Nat) : GoString :=
  if b = 0x27 then [0x5C, 0x27] else [b]

/-- The reverse replacement: every occurrence of backslash, single-quote replaced
by a single-quote, from left to right, without overlap. -/
def unescape : GoString → GoString
  | [] => []
  | [c] => [c]
  | c :: d :: rest =>
    if c = 0x5C ∧ d = 0x27 then 0x27 :: unescape rest else c :: unescape (d :: rest)

/-- The length of the maximal run of backslash bytes that ends right before
position `i` of `l`. -/
def backslashRun (l : GoString) (i : Nat) : Nat :=
  ((l.take i).reverse.takeWhile (fun b => decide (b = 0x5C))).length

/-- The position in `EscapeString s` of the single-quote that comes from the
single-quote at position `i` of `s`: one byte is inserted for each earlier
single-quote and one for this one. -/
def quoteImage (s : GoString) (i : Nat) : Nat :=
  i + (s.take i).count 0x27 + 1

end TodoList

/-! ## Lemmas on `unicode/utf8` -/

namespace TodoList
namespace utf8

theorem first_cases (b : Nat) :
    (b < 0x80 ∧ first b = as) ∨ (0x80 ≤ b ∧ first b = xx) ∨
    (0xC2 ≤ b ∧ (first b = s1 ∨ first b = s2 ∨ first b = s3 ∨ first b = s4 ∨
      first b = s5 ∨ first b = s6 ∨ first b = s7)) := by
  unfold first
  split_ifs <;> simp [as, xx, s1, s2, s3, s4, s5, s6, s7] <;> omega

/-- Table facts for a first byte that starts a multi-byte encoding. -/
theorem first_multi (b : Nat) (h1 : first b ≠ as) (h2 : first b ≠ xx) :
    0xC2 ≤ b ∧ first b < as ∧ 2 ≤ first b &&& 7 ∧ first b &&& 7 ≤ 4 ∧
      0x80 ≤ (acceptRanges (first b >>> 4)).lo := by
  rcases first_cases b with h | h | ⟨hb, h | h | h | h | h | h | h⟩
  · exact absurd h.2 h1
  · exact absurd h.2 h2
  all_goals
    rw [h]
    refine ⟨hb, ?_, ?_, ?_, ?_⟩ <;> decide

theorem first_ascii (b : Nat) (h : b < 0x80) : first b = as := by
  simp [first, h]

theorem first_high (b : Nat) (h : 0x80 ≤ b) : first b ≠ as := by
  rcases first_cases b with h1 | h1 | ⟨_, h1 | h1 | h1 | h1 | h1 | h1 | h1⟩
  · omega
  · rw [h1.2]; decide
  all_goals
    rw [h1]
    decide

theorem decode_ascii (c : Nat) (t : GoString) (h : c < 0x80) :
    DecodeRuneInString (c :: t) = (c, 1) := by
  simp [DecodeRuneInString, first_ascii c h, as]

theorem decode_xx (c : Nat) (t : GoString) (h : first c = xx) :
    DecodeRuneInString (c :: t) = (RuneError, 1) := by
  simp [DecodeRuneInString, h, as, xx]

/-- The width of the first rune, or 1 for an invalid byte. -/
theorem decode_width_le (s : GoString) : (DecodeRuneInString s).2 ≤ s.length := by
  cases s with
  | nil => simp [DecodeRuneInString]
  | cons c t =>
    by_cases ha : first c = as
    · have : DecodeRuneInString (c :: t) = (if as % 2 = 1 then RuneError else c, 1) := by
        simp [DecodeRuneInString, ha]
      rw [this]; simp
    by_cases hx : first c = xx
    · rw [decode_xx c t hx]; simp
    obtain ⟨_, h1, h2, h3, _⟩ := first_multi c ha hx
    unfold DecodeRuneInString
    simp only [List.getD_cons_zero]
    generalize first c &&& 7 = sz at *
    generalize acceptRanges (first c >>> 4) = acc at *
    split_ifs <;> simp only [List.length_cons] at * <;> omega

theorem decode_width_pos (c : Nat) (t : GoString) :
    1 ≤ (DecodeRuneInString (c :: t)).2 := by
  unfold DecodeRuneInString
  simp only []
  split_ifs <;> simp_all


theorem enc_len_bounds (s : GoString) (h : Enc s) : 2 ≤ encLen s ∧ encLen s ≤ 4 := by
  obtain ⟨ha, hx, _⟩ := h
  obtain ⟨_, _, h2, h3, _⟩ := first_multi _ ha hx
  exact ⟨h2, h3⟩

theorem enc_len_le (s : GoString) (h : Enc s) : encLen s ≤ s.length := h.2.2.1

theorem enc_high (s : GoString) (h : Enc s) : ∀ i, i < encLen s → 0x80 ≤ s.getD i 0 := by
  obtain ⟨ha, hx, hl, h1, h1', h2, h3⟩ := h
  obtain ⟨h0, _, _, hs4, h4⟩ := first_multi _ ha hx
  intro i hi
  unfold encLen at *
  simp only [locb] at h2 h3
  rcases Nat.lt_or_ge i 1 with h | h
  · have : i = 0 := by omega
    subst this; omega
  rcases Nat.lt_or_ge i 2 with h | h
  · have : i = 1 := by omega
    subst this; omega
  rcases Nat.lt_or_ge i 3 with h | h
  · have : i = 2 := by omega
    subst this; exact (h2 (by omega)).1
  · have : i = 3 := by omega
    subst this; exact (h3 (by omega)).1

theorem decode_of_enc (s : GoString) (h : Enc s) : (DecodeRuneInString s).2 = encLen s := by
  have hb := enc_len_bounds s h
  obtain ⟨ha, hx, hl, h1, h1', h2, h3⟩ := h
  obtain ⟨h0, hlt, _, _, h4⟩ := first_multi _ ha hx
  unfold DecodeRuneInString
  unfold encLen at *
  simp only []
  generalize first (s.getD 0 0) &&& 7 = sz at *
  generalize acceptRanges (first (s.getD 0 0) >>> 4) = acc at *
  split_ifs <;> omega

theorem decode_of_not_enc (c : Nat) (t : GoString) (hc : 0x80 ≤ c) (h : ¬ Enc (c :: t)) :
    DecodeRuneInString (c :: t) = (RuneError, 1) := by
  have ha := first_high c hc
  by_cases hx : first c = xx
  · exact decode_xx c t hx
  obtain ⟨h0, hlt, hs2, hs4, h4⟩ := first_multi _ ha hx
  unfold Enc encLen at h
  simp only [List.getD_cons_zero, List.length_cons] at h
  unfold DecodeRuneInString
  simp only [List.getD_cons_zero, List.length_cons]
  generalize first c &&& 7 = sz at *
  generalize acceptRanges (first c >>> 4) = acc at *
  split_ifs <;> first | omega | rfl

theorem getD_take_append (s t : GoString) (w i : Nat) (hi : i < w) (hw : w ≤ s.length) :
    (s.take w ++ t).getD i 0 = s.getD i 0 := by
  have h1 : i < (s.take w).length := by simp; omega
  have h2 : i < (s.take w ++ t).length := by simp; omega
  have h3 : i < s.length := by omega
  rw [List.getD_eq_getElem _ _ h2, List.getD_eq_getElem _ _ h3, List.getElem_append_left h1,
    List.getElem_take]

theorem enc_take_append (s t : GoString) (h : Enc s) :
    Enc (s.take (encLen s) ++ t) ∧ encLen (s.take (encLen s) ++ t) = encLen s := by
  have hb := enc_len_bounds s h
  have hl := enc_len_le s h
  have g0 := getD_take_append s t (encLen s) 0 (by omega) hl
  have hlen : encLen (s.take (encLen s) ++ t) = encLen s := by
    show first ((s.take (encLen s) ++ t).getD 0 0) &&& 7 = first (s.getD 0 0) &&& 7
    rw [g0]
  have g1 := getD_take_append s t (encLen s) 1 (by omega) hl
  refine ⟨?_, hlen⟩
  obtain ⟨ha, hx, _, h1, h1', h2, h3⟩ := h
  refine ⟨?_, ?_, ?_, ?_, ?_, ?_, ?_⟩
  · rw [g0]; exact ha
  · rw [g0]; exact hx
  · rw [hlen]; simp; omega
  · rw [g0, g1]; exact h1
  · rw [g0, g1]; exact h1'
  · rw [hlen]; intro h; rw [getD_take_append s t (encLen s) 2 (by omega) hl]; exact h2 h
  · rw [hlen]; intro h; rw [getD_take_append s t (encLen s) 3 (by omega) hl]; exact h3 h


theorem loop_nil (n : Nat) : ValidString.loop n [] = true := by
  cases n <;> rfl

theorem loop_ascii (n c : Nat) (t : GoString) (hc : c < 0x80) :
    ValidString.loop (n + 1) (c :: t) = ValidString.loop n t := by
  rw [ValidString.loop]
  simp only [RuneSelf, if_pos hc]

theorem loop_enc (n c : Nat) (t : GoString) (h : Enc (c :: t)) :
    ValidString.loop (n + 1) (c :: t) = ValidString.loop n ((c :: t).drop (encLen (c :: t))) := by
  have hb := enc_len_bounds _ h
  have hc := enc_high _ h 0 (by omega)
  obtain ⟨ha, hx, hl, h1, h1', h2, h3⟩ := h
  unfold encLen at *
  simp only [List.getD_cons_zero, List.length_cons] at *
  rw [ValidString.loop]
  simp only [List.getD_cons_zero, List.length_cons, RuneSelf]
  generalize first c &&& 7 = sz at *
  generalize acceptRanges (first c >>> 4) = acc at *
  rw [if_neg (by omega), if_neg hx, if_neg (by omega), if_neg (by omega)]
  by_cases e2 : sz = 2
  · rw [if_pos e2]
  rw [if_neg e2, if_neg (by have := h2 (by omega); omega)]
  by_cases e3 : sz = 3
  · rw [if_pos e3]
  rw [if_neg e3, if_neg (by have := h3 (by omega); omega)]

theorem loop_not_enc (n c : Nat) (t : GoString) (hc : 0x80 ≤ c) (h : ¬ Enc (c :: t)) :
    ValidString.loop (n + 1) (c :: t) = false := by
  have ha := first_high c hc
  rw [ValidString.loop]
  simp only [List.getD_cons_zero, List.length_cons, RuneSelf]
  rw [if_neg (by omega)]
  by_cases hx : first c = xx
  · rw [if_pos hx]
  rw [if_neg hx]
  obtain ⟨h0, hlt, hs2, hs4, h4⟩ := first_multi _ ha hx
  unfold Enc encLen at h
  simp only [List.getD_cons_zero, List.length_cons] at h
  generalize first c &&& 7 = sz at *
  generalize acceptRanges (first c >>> 4) = acc at *
  by_cases c1 : sz > t.length + 1
  · rw [if_pos c1]
  rw [if_neg c1]
  by_cases c2 : (c :: t).getD 1 0 < acc.lo ∨ acc.hi < (c :: t).getD 1 0
  · rw [if_pos c2]
  rw [if_neg c2]
  by_cases e2 : sz = 2
  · exfalso; omega
  rw [if_neg e2]
  by_cases c3 : (c :: t).getD 2 0 < locb ∨ hicb < (c :: t).getD 2 0
  · rw [if_pos c3]
  rw [if_neg c3]
  by_cases e3 : sz = 3
  · exfalso; omega
  rw [if_neg e3]
  by_cases c4 : (c :: t).getD 3 0 < locb ∨ hicb < (c :: t).getD 3 0
  · rw [if_pos c4]
  exfalso; omega

theorem loop_fuel (n : Nat) : ∀ (m : Nat) (s : GoString), s.length ≤ n → s.length ≤ m →
    ValidString.loop n s = ValidString.loop m s := by
  induction n with
  | zero =>
    intro m s hn _
    have : s = [] := List.length_eq_zero.mp (by omega)
    subst this
    rw [loop_nil, loop_nil]
  | succ n ih =>
    intro m s hn hm
    cases s with
    | nil => rw [loop_nil, loop_nil]
    | cons c t =>
      cases m with
      | zero => simp at hm
      | succ m =>
        simp only [List.length_cons] at hn hm
        by_cases hc : c < 0x80
        · rw [loop_ascii n c t hc, loop_ascii m c t hc]
          exact ih m t (by omega) (by omega)
        by_cases he : Enc (c :: t)
        · rw [loop_enc n c t he, loop_enc m c t he]
          have hb := enc_len_bounds _ he
          apply ih <;> simp only [List.length_drop, List.length_cons] <;> omega
        · rw [loop_not_enc n c t (by omega) he, loop_not_enc m c t (by omega) he]

theorem valid_nil : ValidString [] = true := rfl

theorem valid_ascii (c : Nat) (t : GoString) (hc : c < 0x80) :
    ValidString (c :: t) = ValidString t := by
  unfold ValidString
  rw [List.length_cons, loop_ascii _ c t hc]

theorem valid_enc (s : GoString) (h : Enc s) :
    ValidString s = ValidString (s.drop (encLen s)) := by
  have hb := enc_len_bounds _ h
  have hl := enc_len_le _ h
  cases s with
  | nil => simp at hl; omega
  | cons c t =>
    unfold ValidString
    rw [List.length_cons, loop_enc _ c t h]
    apply loop_fuel <;> simp only [List.length_drop, List.length_cons] <;> omega

theorem valid_not_enc (c : Nat) (t : GoString) (hc : 0x80 ≤ c) (h : ¬ Enc (c :: t)) :
    ValidString (c :: t) = false := by
  unfold ValidString
  rw [List.length_cons, loop_not_enc _ c t hc h]

end utf8
end TodoList

/-! ## Lemmas on `strings.ReplaceAll` -/

namespace TodoList
namespace strings
open utf8

theorem search_single (q : Nat) : ∀ (s : GoString) (i : Nat), q ∈ s →
    Index.search [q] s i = ((i + s.indexOf q : Nat) : Int) := by
  intro s
  induction s with
  | nil => intro i h; simp at h
  | cons c t ih =>
    intro i h
    by_cases hc : c = q
    · subst hc
      simp [Index.search, List.isPrefixOf]
    · have hq : q ∈ t := by
        rcases List.mem_cons.mp h with h | h
        · exact absurd h.symm hc
        · exact h
      have hne : (q == c) = false := by simp; exact fun h => hc h.symm
      rw [Index.search]
      simp only [List.isPrefixOf, hne, Bool.false_and]
      rw [if_neg (by simp), ih (i + 1) hq, List.indexOf_cons_ne _ hc]
      congr 1
      omega

theorem index_single (q : Nat) (s : GoString) (h : q ∈ s) :
    (Index s [q]).toNat = s.indexOf q := by
  unfold Index
  rw [search_single q s 0 h]
  simp

theorem repl_loop_step (q : Nat) (new : GoString) (k i : Nat) (rest b : GoString) (h : q ∈ rest) :
    Replace.loop [q] new (k + 1) i rest b =
      Replace.loop [q] new k (i + 1) (rest.drop (rest.indexOf q + 1))
        (b ++ rest.take (rest.indexOf q) ++ new) := by
  rw [Replace.loop]
  simp only [List.length_singleton, one_ne_zero, if_false]
  rw [index_single q rest h]

theorem flatMap_repl_of_not_mem (q : Nat) (new : GoString) :
    ∀ l : GoString, q ∉ l → l.flatMap (repl q new) = l := by
  intro l
  induction l with
  | nil => intro _; rfl
  | cons c t ih =>
    intro h
    have hc : c ≠ q := fun e => h (by simp [e])
    have ht : q ∉ t := fun e => h (List.mem_cons_of_mem _ e)
    rw [List.flatMap_cons, ih ht]
    simp [repl, hc]

theorem repl_loop (q : Nat) (new : GoString) : ∀ (rest b : GoString) (i : Nat),
    Replace.loop [q] new (rest.count q) i rest b = b ++ rest.flatMap (repl q new) := by
  intro rest
  induction rest with
  | nil => intro b i; simp [Replace.loop]
  | cons c t ih =>
    intro b i
    by_cases hc : c = q
    · subst hc
      rw [List.count_cons_self, repl_loop_step c new _ i (c :: t) b (by simp)]
      simp only [List.indexOf_cons_self, List.drop_succ_cons, List.drop_zero, List.take_zero,
        List.append_nil]
      rw [ih, List.flatMap_cons]
      simp [repl]
    · by_cases hq : q ∈ t
      · have hpos : 0 < t.count q := List.count_pos_iff.mpr hq
        obtain ⟨k, hk⟩ : ∃ k, t.count q = k + 1 := ⟨t.count q - 1, by omega⟩
        have hcnt : (c :: t).count q = k + 1 := by
          rw [List.count_cons_of_ne (Ne.symm hc), hk]
        have := ih (b ++ [c]) i
        rw [hk, repl_loop_step q new k i t _ hq] at this
        rw [hcnt, repl_loop_step q new k i (c :: t) b (List.mem_cons_of_mem _ hq),
          List.indexOf_cons_ne _ hc]
        simp only [List.drop_succ_cons, List.take_succ_cons]
        rw [List.flatMap_cons]
        simp only [repl, if_neg hc]
        simp only [List.append_assoc, List.singleton_append] at this ⊢
        exact this
      · have hq2 : q ∉ c :: t := by
          intro h
          rcases List.mem_cons.mp h with h | h
          · exact hc h.symm
          · exact hq h
        rw [List.count_eq_zero_of_not_mem hq2, flatMap_repl_of_not_mem q new _ hq2]
        simp [Replace.loop]

theorem replaceAll_single (q : Nat) (new s : GoString) (h : [q] ≠ new) :
    ReplaceAll s [q] new = s.flatMap (repl q new) := by
  unfold ReplaceAll Replace
  rw [if_neg (by simp [h])]
  have hc : Count s [q] = s.count q := by simp [Count]
  simp only [hc]
  by_cases h0 : s.count q = 0
  · rw [if_pos h0]
    exact (flatMap_repl_of_not_mem q new s (List.count_eq_zero.mp h0)).symm
  · rw [if_neg h0]
    have := repl_loop q new s [] 0
    simpa using this

end strings
end TodoList

/-! ## Lemmas on the segmentation into characters -/

namespace TodoList
open utf8

theorem runes_go_fuel (n : Nat) : ∀ (m : Nat) (s : GoString), s.length ≤ n → s.length ≤ m →
    runes.go n s = runes.go m s := by
  induction n with
  | zero =>
    intro m s hn _
    have : s = [] := List.length_eq_zero.mp (by omega)
    subst this
    cases m <;> rfl
  | succ n ih =>
    intro m s hn hm
    cases s with
    | nil => cases m <;> rfl
    | cons c t =>
      cases m with
      | zero => simp at hm
      | succ m =>
        simp only [List.length_cons] at hn hm
        have hp := decode_width_pos c t
        rw [runes.go, runes.go]
        congr 1
        apply ih <;> simp only [List.length_drop, List.length_cons] <;> omega

theorem runes_nil : runes [] = [] := rfl

theorem runes_cons (c : Nat) (t : GoString) :
    runes (c :: t) = (c :: t).take (DecodeRuneInString (c :: t)).2 ::
      runes ((c :: t).drop (DecodeRuneInString (c :: t)).2) := by
  have hp := decode_width_pos c t
  unfold runes
  rw [List.length_cons, runes.go]
  congr 1
  apply runes_go_fuel <;> simp only [List.length_drop, List.length_cons] <;> omega

theorem runes_ascii (c : Nat) (t : GoString) (hc : c < 0x80) :
    runes (c :: t) = [c] :: runes t := by
  rw [runes_cons, decode_ascii c t hc]
  simp

theorem runes_enc (s : GoString) (h : Enc s) :
    runes s = s.take (encLen s) :: runes (s.drop (encLen s)) := by
  have hl := enc_len_le _ h
  have hb := enc_len_bounds _ h
  cases s with
  | nil => simp at hl; omega
  | cons c t => rw [runes_cons, decode_of_enc _ h]

theorem runes_bad (c : Nat) (t : GoString) (hc : 0x80 ≤ c) (h : ¬ Enc (c :: t)) :
    runes (c :: t) = [c] :: runes t := by
  rw [runes_cons, decode_of_not_enc c t hc h]
  simp

theorem not_enc_singleton (c : Nat) : ¬ Enc [c] := by
  intro h
  have hl := enc_len_le _ h
  have hb := enc_len_bounds _ h
  simp at hl
  omega

theorem wellFormed_ascii (c : Nat) (hc : c < 0x80) : wellFormed [c] = true := by
  unfold wellFormed
  rw [decode_ascii c [] hc]
  simp [RuneError]
  omega

theorem wellFormed_bad (c : Nat) (hc : 0x80 ≤ c) : wellFormed [c] = false := by
  unfold wellFormed
  rw [decode_of_not_enc c [] hc (not_enc_singleton c)]
  simp

theorem wellFormed_enc (s : GoString) (h : Enc s) : wellFormed (s.take (encLen s)) = true := by
  have h2 := enc_take_append s [] h
  rw [List.append_nil] at h2
  have hw := decode_of_enc _ h2.1
  have hb := enc_len_bounds _ h
  rw [h2.2] at hw
  unfold wellFormed
  simp only [decide_eq_true_eq]
  intro e
  rw [e] at hw
  simp at hw
  omega

theorem dm_nil : dropMalformed [] = [] := rfl

theorem dm_ascii (c : Nat) (t : GoString) (hc : c < 0x80) :
    dropMalformed (c :: t) = c :: dropMalformed t := by
  unfold dropMalformed
  rw [runes_ascii c t hc, List.filter_cons_of_pos (wellFormed_ascii c hc)]
  simp

theorem dm_enc (s : GoString) (h : Enc s) :
    dropMalformed s = s.take (encLen s) ++ dropMalformed (s.drop (encLen s)) := by
  unfold dropMalformed
  rw [runes_enc s h, List.filter_cons_of_pos (wellFormed_enc s h)]
  simp

theorem dm_bad (c : Nat) (t : GoString) (hc : 0x80 ≤ c) (h : ¬ Enc (c :: t)) :
    dropMalformed (c :: t) = dropMalformed t := by
  unfold dropMalformed
  rw [runes_bad c t hc h, List.filter_cons_of_neg (by simp [wellFormed_bad c hc])]

end TodoList

/-! ## Lemmas on `strings.ToValidUTF8` -/

namespace TodoList
namespace strings
open utf8

theorem scan_nil (n i : Nat) : ToValidUTF8.scan n [] i = none := by
  cases n <;> rfl

theorem scan_ascii (n i c : Nat) (t : GoString) (hc : c < 0x80) :
    ToValidUTF8.scan (n + 1) (c :: t) i = ToValidUTF8.scan n t (i + 1) := by
  rw [ToValidUTF8.scan]
  simp only [decode_ascii c t hc]
  rw [if_pos (by simp only [RuneError]; omega)]
  simp

theorem scan_enc (n i c : Nat) (t : GoString) (h : Enc (c :: t)) :
    ToValidUTF8.scan (n + 1) (c :: t) i =
      ToValidUTF8.scan n ((c :: t).drop (encLen (c :: t))) (i + encLen (c :: t)) := by
  have hb := enc_len_bounds _ h
  rw [ToValidUTF8.scan]
  simp only [decode_of_enc _ h]
  split_ifs
  · rfl
  · omega
  · rfl

theorem scan_bad (n i c : Nat) (t : GoString) (hc : 0x80 ≤ c) (h : ¬ Enc (c :: t)) :
    ToValidUTF8.scan (n + 1) (c :: t) i = some i := by
  rw [ToValidUTF8.scan]
  simp only [decode_of_not_enc c t hc h]
  simp

theorem scan_spec (n : Nat) : ∀ (s : GoString) (i : Nat), s.length ≤ n →
    (ToValidUTF8.scan n s i = none ∧ dropMalformed s = s) ∨
    (∃ k, ToValidUTF8.scan n s i = some (i + k) ∧ k ≤ s.length ∧
      dropMalformed s = s.take k ++ dropMalformed (s.drop k)) := by
  induction n with
  | zero =>
    intro s i hn
    have : s = [] := List.length_eq_zero.mp (by omega)
    subst this
    exact Or.inl ⟨rfl, rfl⟩
  | succ n ih =>
    intro s i hn
    cases s with
    | nil => exact Or.inl ⟨scan_nil _ _, rfl⟩
    | cons c t =>
      simp only [List.length_cons] at hn
      by_cases hc : c < 0x80
      · rw [scan_ascii n i c t hc, dm_ascii c t hc]
        rcases ih t (i + 1) (by omega) with ⟨h1, h2⟩ | ⟨k, h1, h2, h3⟩
        · exact Or.inl ⟨h1, by rw [h2]⟩
        · refine Or.inr ⟨k + 1, ?_, ?_, ?_⟩
          · rw [h1]; congr 1; omega
          · simp only [List.length_cons]; omega
          · rw [h3]; simp
      by_cases he : Enc (c :: t)
      · have hb := enc_len_bounds _ he
        have hl := enc_len_le _ he
        rw [scan_enc n i c t he, dm_enc _ he]
        have hlen : ((c :: t).drop (encLen (c :: t))).length ≤ n := by
          simp only [List.length_drop, List.length_cons]; omega
        rcases ih _ (i + encLen (c :: t)) hlen with ⟨h1, h2⟩ | ⟨k, h1, h2, h3⟩
        · exact Or.inl ⟨h1, by rw [h2, List.take_append_drop]⟩
        · refine Or.inr ⟨encLen (c :: t) + k, ?_, ?_, ?_⟩
          · rw [h1]; congr 1; omega
          · simp only [List.length_drop] at h2; omega
          · rw [h3, List.take_add, List.drop_drop, List.append_assoc]
      · refine Or.inr ⟨0, ?_, ?_, ?_⟩
        · rw [scan_bad n i c t (by omega) he]; rfl
        · omega
        · simp

theorem repair_spec (n : Nat) : ∀ (s : GoString) (invalid : Bool) (b : GoString), s.length ≤ n →
    ToValidUTF8.repair [] n s invalid b = b ++ dropMalformed s := by
  induction n with
  | zero =>
    intro s inv b hn
    have : s = [] := List.length_eq_zero.mp (by omega)
    subst this
    simp [ToValidUTF8.repair, dm_nil]
  | succ n ih =>
    intro s inv b hn
    cases s with
    | nil => simp [ToValidUTF8.repair, dm_nil]
    | cons c t =>
      simp only [List.length_cons] at hn
      rw [ToValidUTF8.repair]
      by_cases hc : c < 0x80
      · simp only [RuneSelf, if_pos hc]
        rw [ih t false _ (by omega), dm_ascii c t hc]
        simp
      simp only [RuneSelf, if_neg hc]
      by_cases he : Enc (c :: t)
      · have hb := enc_len_bounds _ he
        rw [decode_of_enc _ he, if_neg (by omega), ih _ false _
          (by simp only [List.length_drop, List.length_cons]; omega), dm_enc _ he]
        simp
      · rw [decode_of_not_enc c t (by omega) he]
        simp only [if_true, List.append_nil]
        rw [dm_bad c t (by omega) he]
        cases inv
        · simp only [Bool.not_false, if_true]
          exact ih t true b (by omega)
        · simp only [Bool.not_true, Bool.false_eq_true, if_false]
          exact ih t true b (by omega)

theorem toValidUTF8_eq (s : GoString) : ToValidUTF8 s [] = dropMalformed s := by
  unfold ToValidUTF8
  rcases scan_spec s.length s 0 (le_refl _) with ⟨h1, h2⟩ | ⟨k, h1, h2, h3⟩
  · rw [h1, h2]
  · rw [h1]
    simp only [Nat.zero_add]
    rw [repair_spec _ _ _ _ (le_refl _), ← h3]

end strings
end TodoList

/-! ## Induction along the decoding, and validity -/

namespace TodoList
open utf8 strings

/-- Induction along the left-to-right decoding of a string: an ASCII byte, a
well-formed multi-byte encoding, or a byte at which no encoding starts. -/
theorem rune_induction (P : GoString → Prop) (hnil : P [])
    (hascii : ∀ c t, c < 0x80 → P t → P (c :: t))
    (henc : ∀ s, Enc s → P (s.drop (encLen s)) → P s)
    (hbad : ∀ c t, 0x80 ≤ c → ¬ Enc (c :: t) → P t → P (c :: t)) : ∀ s, P s := by
  have key : ∀ n (s : GoString), s.length ≤ n → P s := by
    intro n
    induction n with
    | zero =>
      intro s hn
      have : s = [] := List.length_eq_zero.mp (by omega)
      subst this
      exact hnil
    | succ n ih =>
      intro s hn
      cases s with
      | nil => exact hnil
      | cons c t =>
        simp only [List.length_cons] at hn
        by_cases hc : c < 0x80
        · exact hascii c t hc (ih t (by omega))
        by_cases he : Enc (c :: t)
        · have hb := enc_len_bounds _ he
          exact henc _ he (ih _ (by simp only [List.length_drop, List.length_cons]; omega))
        · exact hbad c t (by omega) he (ih t (by omega))
  exact fun s => key s.length s (le_refl _)

theorem enc_take_high (s : GoString) (h : Enc s) : ∀ b ∈ s.take (encLen s), 0x80 ≤ b := by
  intro b hb
  obtain ⟨i, hi, rfl⟩ := List.mem_iff_getElem.mp hb
  have hl := enc_len_le _ h
  have hi2 : i < encLen s := by
    simp only [List.length_take] at hi; omega
  have := enc_high s h i hi2
  rw [List.getD_eq_getElem _ _ (by omega)] at this
  rw [List.getElem_take]
  exact this

theorem drop_take_append (s r : GoString) (w : Nat) (hw : w ≤ s.length) :
    (s.take w ++ r).drop w = r :=
  List.drop_left' (by simp only [List.length_take]; omega)

theorem valid_take_append (s r : GoString) (h : Enc s) :
    ValidString (s.take (encLen s) ++ r) = ValidString r := by
  obtain ⟨h1, h2⟩ := enc_take_append s r h
  rw [valid_enc _ h1, h2, drop_take_append s r _ (enc_len_le _ h)]

theorem valid_append (a b : GoString) : ValidString a = true →
    ValidString (a ++ b) = ValidString b := by
  refine rune_induction (fun a => ValidString a = true → ValidString (a ++ b) = ValidString b)
    ?_ ?_ ?_ ?_ a
  · intro _; rfl
  · intro c t hc ih hv
    rw [valid_ascii c t hc] at hv
    rw [List.cons_append, valid_ascii c _ hc]
    exact ih hv
  · intro s he ih hv
    rw [valid_enc s he] at hv
    have : s ++ b = s.take (encLen s) ++ (s.drop (encLen s) ++ b) := by
      rw [← List.append_assoc, List.take_append_drop]
    rw [this, valid_take_append _ _ he]
    exact ih hv
  · intro c t hc he _ hv
    rw [valid_not_enc c t hc he] at hv
    exact absurd hv (by simp)

theorem dm_of_valid (s : GoString) : ValidString s = true → dropMalformed s = s := by
  refine rune_induction (fun s => ValidString s = true → dropMalformed s = s) ?_ ?_ ?_ ?_ s
  · intro _; rfl
  · intro c t hc ih hv
    rw [valid_ascii c t hc] at hv
    rw [dm_ascii c t hc, ih hv]
  · intro s he ih hv
    rw [valid_enc s he] at hv
    rw [dm_enc s he, ih hv, List.take_append_drop]
  · intro c t hc he _ hv
    rw [valid_not_enc c t hc he] at hv
    exact absurd hv (by simp)

theorem valid_dm (s : GoString) : ValidString (dropMalformed s) = true := by
  refine rune_induction (fun s => ValidString (dropMalformed s) = true) ?_ ?_ ?_ ?_ s
  · rfl
  · intro c t hc ih
    rw [dm_ascii c t hc, valid_ascii c _ hc]
    exact ih
  · intro s he ih
    rw [dm_enc s he, valid_take_append _ _ he]
    exact ih
  · intro c t hc he ih
    rw [dm_bad c t hc he]
    exact ih

theorem dm_sublist (s : GoString) : (dropMalformed s).Sublist s := by
  refine rune_induction (fun s => (dropMalformed s).Sublist s) ?_ ?_ ?_ ?_ s
  · exact List.Sublist.refl _
  · intro c t hc ih
    rw [dm_ascii c t hc]
    exact ih.cons₂ c
  · intro s he ih
    rw [dm_enc s he]
    have : (s.take (encLen s) ++ dropMalformed (s.drop (encLen s))).Sublist
        (s.take (encLen s) ++ s.drop (encLen s)) :=
      List.Sublist.append (List.Sublist.refl _) ih
    rwa [List.take_append_drop] at this
  · intro c t hc he ih
    rw [dm_bad c t hc he]
    exact ih.cons c

/-- Deleting malformed bytes keeps every ASCII byte. -/
theorem count_dm (c : Nat) (hc : c < 0x80) (s : GoString) :
    (dropMalformed s).count c = s.count c := by
  refine rune_induction (fun s => (dropMalformed s).count c = s.count c) ?_ ?_ ?_ ?_ s
  · rfl
  · intro d t hd ih
    rw [dm_ascii d t hd, List.count_cons, List.count_cons, ih]
  · intro s he ih
    rw [dm_enc s he, List.count_append, ih]
    conv_rhs => rw [← List.take_append_drop (encLen s) s, List.count_append]
  · intro d t hd he ih
    rw [dm_bad d t hd he, ih, List.count_cons_of_ne (by omega)]

end TodoList

/-! ## Characterisation of `EscapeString` -/

namespace TodoList
open utf8 strings

theorem repl_eq_escByte : repl 0x27 [0x5C, 0x27] = escByte := by
  funext b
  rfl

theorem escape_eq (s : GoString) : EscapeString s = (dropMalformed s).flatMap escByte := by
  unfold EscapeString
  simp only []
  rw [replaceAll_single 0x27 [0x5C, 0x27] _ (by decide), repl_eq_escByte]
  by_cases hv : ValidString s = true
  · simp [hv, dm_of_valid s hv]
  · simp [hv, toValidUTF8_eq]

theorem escape_of_valid (s : GoString) (hv : ValidString s = true) :
    EscapeString s = s.flatMap escByte := by
  rw [escape_eq, dm_of_valid s hv]

theorem flatMap_escByte_of_high (l : GoString) (h : ∀ b ∈ l, 0x80 ≤ b) :
    l.flatMap escByte = l := by
  rw [← repl_eq_escByte]
  apply flatMap_repl_of_not_mem
  intro hm
  have := h _ hm
  omega

theorem flatMap_escByte_enc (s : GoString) (h : Enc s) :
    s.flatMap escByte = s.take (encLen s) ++ (s.drop (encLen s)).flatMap escByte := by
  conv_lhs => rw [← List.take_append_drop (encLen s) s, List.flatMap_append]
  rw [flatMap_escByte_of_high _ (enc_take_high s h)]

theorem escByte_ascii (c : Nat) (hc : c < 0x80) (r : GoString) :
    ValidString (escByte c ++ r) = ValidString r := by
  unfold escByte
  split_ifs
  · rw [List.cons_append, List.cons_append, valid_ascii _ _ (by omega), valid_ascii _ _ (by omega)]
    rfl
  · rw [List.cons_append, valid_ascii _ _ hc]
    rfl

theorem valid_flatMap_escByte (s : GoString) : ValidString s = true →
    ValidString (s.flatMap escByte) = true := by
  refine rune_induction (fun s => ValidString s = true → ValidString (s.flatMap escByte) = true)
    ?_ ?_ ?_ ?_ s
  · intro _; rfl
  · intro c t hc ih hv
    rw [valid_ascii c t hc] at hv
    rw [List.flatMap_cons, escByte_ascii c hc]
    exact ih hv
  · intro s he ih hv
    rw [valid_enc s he] at hv
    rw [flatMap_escByte_enc s he, valid_take_append _ _ he]
    exact ih hv
  · intro c t hc he _ hv
    rw [valid_not_enc c t hc he] at hv
    exact absurd hv (by simp)

theorem valid_escape (s : GoString) : ValidString (EscapeString s) = true := by
  rw [escape_eq]
  exact valid_flatMap_escByte _ (valid_dm s)

theorem escapeByChars_eq (s : GoString) : escapeByChars s = s.flatMap escByte := by
  unfold escapeByChars
  refine rune_induction (fun s => (runes s).flatMap
    (fun ch => if ch = [0x27] then [0x5C, 0x27] else ch) = s.flatMap escByte) ?_ ?_ ?_ ?_ s
  · rfl
  · intro c t hc ih
    rw [runes_ascii c t hc, List.flatMap_cons, List.flatMap_cons, ih]
    congr 1
    unfold escByte
    by_cases h : c = 0x27 <;> simp [h]
  · intro s he ih
    have hb := enc_len_bounds _ he
    have hl := enc_len_le _ he
    rw [runes_enc s he, List.flatMap_cons, ih, flatMap_escByte_enc s he]
    congr 1
    rw [if_neg]
    intro e
    have := congrArg List.length e
    simp only [List.length_take, List.length_singleton] at this
    omega
  · intro c t hc he ih
    rw [runes_bad c t hc he, List.flatMap_cons, List.flatMap_cons, ih]
    congr 1
    unfold escByte
    have h : c ≠ 0x27 := by omega
    simp [h]

theorem length_flatMap_escByte (l : GoString) :
    (l.flatMap escByte).length = l.length + l.count 0x27 := by
  induction l with
  | nil => rfl
  | cons c t ih =>
    rw [List.flatMap_cons, List.length_append, ih]
    unfold escByte
    by_cases h : c = 0x27
    · subst h; simp; omega
    · rw [if_neg h, List.count_cons_of_ne (Ne.symm h)]
      simp; omega

theorem count_flatMap_escByte (l : GoString) (c : Nat) :
    (l.flatMap escByte).count c = l.count c + (if c = 0x5C then l.count 0x27 else 0) := by
  induction l with
  | nil => simp
  | cons d t ih =>
    rw [List.flatMap_cons, List.count_append, ih]
    unfold escByte
    by_cases h : d = 0x27
    · subst h
      by_cases h2 : c = 0x5C
      · subst h2; simp; omega
      · by_cases h3 : c = 0x27
        · subst h3; simp; omega
        · simp [h2, List.count_cons, Ne.symm h2, Ne.symm h3]
    · rw [if_neg h, List.count_cons_of_ne (Ne.symm h) t]
      by_cases h2 : c = 0x5C
      · subst h2; simp [List.count_cons]; omega
      · simp [h2, List.count_cons]; omega

end TodoList

/-! ## Escaped quotes and `FormatCategoryIdsArray` -/

namespace TodoList
open utf8 strings

theorem qe_nil : QuotesEscaped [] := by
  intro i h
  simp at h

theorem qe_cons (c : Nat) (out : GoString) (hc : c ≠ 0x27) (h : QuotesEscaped out) :
    QuotesEscaped (c :: out) := by
  intro i hi
  cases i with
  | zero =>
    simp only [List.getElem?_cons_zero, Option.some.injEq] at hi
    exact absurd hi hc
  | succ j =>
    simp only [List.getElem?_cons_succ] at hi
    obtain ⟨h1, h2⟩ := h j hi
    refine ⟨by omega, ?_⟩
    obtain ⟨k, rfl⟩ : ∃ k, j = k + 1 := ⟨j - 1, by omega⟩
    simpa using h2

theorem qe_esc (out : GoString) (h : QuotesEscaped out) :
    QuotesEscaped (0x5C :: 0x27 :: out) := by
  intro i hi
  cases i with
  | zero => simp at hi
  | succ j =>
    cases j with
    | zero => simp
    | succ k =>
      simp only [List.getElem?_cons_succ] at hi
      obtain ⟨h1, h2⟩ := h k hi
      refine ⟨by omega, ?_⟩
      obtain ⟨m, rfl⟩ : ∃ m, k = m + 1 := ⟨k - 1, by omega⟩
      simpa using h2

theorem qe_flatMap (l : GoString) : QuotesEscaped (l.flatMap escByte) := by
  induction l with
  | nil => exact qe_nil
  | cons c t ih =>
    rw [List.flatMap_cons]
    unfold escByte
    by_cases h : c = 0x27
    · rw [if_pos h]
      exact qe_esc _ ih
    · rw [if_neg h]
      exact qe_cons c _ h ih

theorem qe_append (a b : GoString) (ha : QuotesEscaped a) (hb : QuotesEscaped b) :
    QuotesEscaped (a ++ b) := by
  intro i hi
  rcases Nat.lt_or_ge i a.length with hlt | hge
  · rw [List.getElem?_append_left hlt] at hi
    obtain ⟨h1, h2⟩ := ha i hi
    refine ⟨h1, ?_⟩
    rw [List.getElem?_append_left (by omega)]
    exact h2
  · rw [List.getElem?_append_right hge] at hi
    obtain ⟨h1, h2⟩ := hb _ hi
    refine ⟨by omega, ?_⟩
    rw [List.getElem?_append_right (by omega)]
    have : i - 1 - a.length = i - a.length - 1 := by omega
    rw [this]
    exact h2

theorem qe_of_not_mem (out : GoString) (h : 0x27 ∉ out) : QuotesEscaped out := by
  intro i hi
  exact absurd (List.getElem?_mem hi) h

theorem qe_escape (s : GoString) : QuotesEscaped (EscapeString s) := by
  rw [escape_eq]
  exact qe_flatMap _

theorem join_cons (e : GoString) (es : List GoString) (sep : GoString) :
    Join (e :: es) sep = e ++ es.flatMap (fun s => sep ++ s) := by
  have key : ∀ (es : List GoString) (b : GoString),
      es.foldl (fun b s => b ++ sep ++ s) b = b ++ es.flatMap (fun s => sep ++ s) := by
    intro es
    induction es with
    | nil => intro b; simp
    | cons y ys ih =>
      intro b
      rw [List.foldl_cons, ih, List.flatMap_cons]
      simp only [List.append_assoc]
  cases es with
  | nil => simp [Join]
  | cons y ys =>
    unfold Join
    exact key _ _

theorem format_cons (x : GoString) (xs : List GoString) :
    FormatCategoryIdsArray (some (x :: xs)) =
      [0x5B] ++ EscapeString x ++ xs.flatMap (fun y => [0x2C, 0x20] ++ EscapeString y) ++
        [0x5D] := by
  unfold FormatCategoryIdsArray
  rw [if_neg (by simp [StringSlice.len])]
  simp only [StringSlice.elems, List.map_cons, join_cons, List.flatMap_map]
  simp

/-- Valid UTF-8 in which every single-quote is escaped. -/
theorem good_append (a b : GoString)
    (ha : ValidString a = true ∧ QuotesEscaped a) (hb : ValidString b = true ∧ QuotesEscaped b) :
    ValidString (a ++ b) = true ∧ QuotesEscaped (a ++ b) :=
  ⟨by rw [valid_append a b ha.1]; exact hb.1, qe_append a b ha.2 hb.2⟩

theorem good_flatMap (f : GoString → GoString) (xs : List GoString)
    (hf : ∀ y, ValidString (f y) = true ∧ QuotesEscaped (f y)) :
    ValidString (xs.flatMap f) = true ∧ QuotesEscaped (xs.flatMap f) := by
  induction xs with
  | nil => exact ⟨rfl, qe_nil⟩
  | cons y ys ih =>
    rw [List.flatMap_cons]
    exact good_append _ _ (hf y) ih

theorem good_format (ids : StringSlice) :
    ValidString (FormatCategoryIdsArray ids) = true ∧
      QuotesEscaped (FormatCategoryIdsArray ids) := by
  have hesc : ∀ y, ValidString (EscapeString y) = true ∧ QuotesEscaped (EscapeString y) :=
    fun y => ⟨valid_escape y, qe_escape y⟩
  have hlit : ∀ l : GoString, ValidString l = true → 0x27 ∉ l →
      ValidString l = true ∧ QuotesEscaped l := fun l h1 h2 => ⟨h1, qe_of_not_mem l h2⟩
  have hempty : ValidString [0x5B, 0x5D] = true ∧ QuotesEscaped [0x5B, 0x5D] :=
    hlit _ (by decide) (by decide)
  match ids with
  | none => exact hempty
  | some [] => exact hempty
  | some (x :: xs) =>
    rw [format_cons]
    refine good_append _ _ (good_append _ _ (good_append _ _ (hlit _ (by decide) (by decide))
      (hesc x)) (good_flatMap _ xs ?_)) (hlit _ (by decide) (by decide))
    intro y
    exact good_append _ _ (hlit _ (by decide) (by decide)) (hesc y)

end TodoList

/-! ## Occurrences of a character -/

namespace TodoList
open utf8 strings

theorem runes_take_append (s r : GoString) (h : Enc s) :
    runes (s.take (encLen s) ++ r) = s.take (encLen s) :: runes r := by
  obtain ⟨h1, h2⟩ := enc_take_append s r h
  have hl := enc_len_le _ h
  rw [runes_enc _ h1, h2, drop_take_append s r _ hl,
    List.take_left' (by simp only [List.length_take]; omega)]

theorem runes_dm (s : GoString) : runes (dropMalformed s) = (runes s).filter wellFormed := by
  refine rune_induction (fun s => runes (dropMalformed s) = (runes s).filter wellFormed)
    ?_ ?_ ?_ ?_ s
  · rfl
  · intro c t hc ih
    rw [dm_ascii c t hc, runes_ascii c _ hc, runes_ascii c t hc,
      List.filter_cons_of_pos (wellFormed_ascii c hc), ih]
  · intro s he ih
    rw [dm_enc s he, runes_take_append s _ he, ih]
    conv_rhs => rw [runes_enc s he, List.filter_cons_of_pos (wellFormed_enc s he)]
  · intro c t hc he ih
    rw [dm_bad c t hc he, ih, runes_bad c t hc he,
      List.filter_cons_of_neg (by simp [wellFormed_bad c hc])]

/-- Escaping neither creates nor removes an encoded character of three bytes. -/
theorem count_runes_flatMap (seg : GoString) (hseg : seg.length = 3) (l : GoString) :
    ValidString l = true →
      (runes (l.flatMap escByte)).count seg = (runes l).count seg := by
  have h1 : ∀ c : Nat, [c] ≠ seg := by
    intro c e
    rw [← e] at hseg
    simp at hseg
  refine rune_induction (fun l => ValidString l = true →
    (runes (l.flatMap escByte)).count seg = (runes l).count seg) ?_ ?_ ?_ ?_ l
  · intro _; rfl
  · intro c t hc ih hv
    rw [valid_ascii c t hc] at hv
    rw [List.flatMap_cons, runes_ascii c t hc, List.count_cons_of_ne (h1 c).symm, ← ih hv]
    unfold escByte
    by_cases h : c = 0x27
    · rw [if_pos h, List.cons_append, List.cons_append, runes_ascii _ _ (by omega),
        runes_ascii _ _ (by omega), List.count_cons_of_ne (h1 _).symm,
        List.count_cons_of_ne (h1 _).symm]
      rfl
    · rw [if_neg h, List.cons_append, runes_ascii _ _ hc, List.count_cons_of_ne (h1 _).symm]
      rfl
  · intro s he ih hv
    rw [valid_enc s he] at hv
    rw [flatMap_escByte_enc s he, runes_take_append s _ he, List.count_cons, ih hv]
    conv_rhs => rw [runes_enc s he, List.count_cons]
  · intro c t hc he _ hv
    rw [valid_not_enc c t hc he] at hv
    exact absurd hv (by simp)

/-- The output has as many occurrences of a well-formed three-byte character,
such as U+FFFD, as the input. -/
theorem count_runes_escape (seg : GoString) (hseg : seg.length = 3)
    (hwf : wellFormed seg = true) (s : GoString) :
    (runes (EscapeString s)).count seg = (runes s).count seg := by
  rw [escape_eq, count_runes_flatMap seg hseg _ (valid_dm s), runes_dm]
  exact List.count_filter hwf

end TodoList

/-! ## Counting, backslash runs and the reverse replacement -/

namespace TodoList
open utf8 strings

theorem flatMap_escByte_of_not_mem (l : GoString) (h : 0x27 ∉ l) : l.flatMap escByte = l := by
  rw [← repl_eq_escByte]
  exact flatMap_repl_of_not_mem _ _ l h

theorem count_escape (s : GoString) (c : Nat) (hc : c < 0x80) :
    (EscapeString s).count c = s.count c + (if c = 0x5C then s.count 0x27 else 0) := by
  rw [escape_eq, count_flatMap_escByte, count_dm c hc, count_dm 0x27 (by decide)]

theorem escByte_quote : escByte 0x27 = [0x5C, 0x27] := rfl

theorem escByte_of_ne (c : Nat) (h : c ≠ 0x27) : escByte c = [c] := by
  unfold escByte
  rw [if_neg h]

/-- The run of backslashes at the end of a string is not changed by the escaping. -/
theorem trailing_flatMap_escByte (l : GoString) :
    ((l.flatMap escByte).reverse.takeWhile (fun b => decide (b = 0x5C))).length =
      (l.reverse.takeWhile (fun b => decide (b = 0x5C))).length := by
  induction l using List.reverseRecOn with
  | nil => rfl
  | append_singleton l c ih =>
    rw [List.flatMap_append, List.reverse_append, List.reverse_append]
    simp only [List.flatMap_cons, List.flatMap_nil, List.append_nil, List.reverse_cons,
      List.reverse_nil, List.nil_append, List.singleton_append]
    by_cases hq : c = 0x27
    · subst hq
      rw [escByte_quote]
      simp
    · rw [escByte_of_ne c hq]
      by_cases hb : c = 0x5C
      · subst hb
        simp only [List.reverse_cons, List.reverse_nil, List.nil_append, List.singleton_append,
          List.takeWhile_cons, decide_True, if_true, List.length_cons, ih]
      · simp [hb]

theorem split_at_index (s : GoString) (i c : Nat) (h : s[i]? = some c) :
    s = s.take i ++ c :: s.drop (i + 1) := by
  obtain ⟨hi, rfl⟩ := List.getElem?_eq_some.mp h
  conv_lhs => rw [← List.take_append_drop i s]
  rw [List.drop_eq_getElem_cons hi]

theorem flatMap_escByte_at_quote (s : GoString) (i : Nat) (h : s[i]? = some 0x27) :
    s.flatMap escByte =
      ((s.take i).flatMap escByte ++ [0x5C]) ++ 0x27 :: (s.drop (i + 1)).flatMap escByte := by
  conv_lhs => rw [split_at_index s i _ h, List.flatMap_append, List.flatMap_cons]
  simp [escByte]

theorem quoteImage_eq (s : GoString) (i : Nat) (h : s[i]? = some 0x27) :
    quoteImage s i = ((s.take i).flatMap escByte ++ [0x5C]).length := by
  obtain ⟨hi, _⟩ := List.getElem?_eq_some.mp h
  unfold quoteImage
  rw [List.length_append, length_flatMap_escByte, List.length_take]
  simp
  omega

theorem head_flatMap_escByte (l : GoString) : (l.flatMap escByte).head? ≠ some 0x27 := by
  cases l with
  | nil => simp
  | cons c t =>
    rw [List.flatMap_cons]
    unfold escByte
    by_cases hq : c = 0x27
    · simp [hq]
    · simp [hq]

theorem unescape_flatMap_escByte (s : GoString) : unescape (s.flatMap escByte) = s := by
  induction s with
  | nil => rfl
  | cons c t ih =>
    rw [List.flatMap_cons]
    by_cases hq : c = 0x27
    · subst hq
      simp only [escByte, if_true, List.cons_append, List.nil_append]
      rw [unescape, if_pos ⟨rfl, rfl⟩, ih]
    · have hh := head_flatMap_escByte t
      simp only [escByte, if_neg hq, List.cons_append, List.nil_append]
      cases hF : t.flatMap escByte with
      | nil =>
        rw [hF] at ih
        rw [← ih]
        rfl
      | cons d r =>
        rw [hF] at ih hh
        have hd : d ≠ 0x27 := by
          intro e
          apply hh
          simp [e]
        rw [unescape, if_neg (fun h => hd h.2), ih]

end TodoList

namespace TodoList
open utf8 strings

/-! ## The claims -/

/-- C1: for every valid UTF-8 string `s`, `EscapeString s` is the string obtained
by going through `s` character by character, emitting backslash, single-quote
for each single-quote and every other character (backslashes included)
unchanged. -/
theorem EscapeString_eq_escapeByChars (s : GoString) (hv : ValidString s = true) :
    EscapeString s = escapeByChars s := by
  rw [escape_of_valid s hv, escapeByChars_eq]

/-- Witness of C1: the string `O'Brien` is valid UTF-8 and is escaped to
`O\'Brien`, with exactly one backslash. -/
theorem EscapeString_eq_escapeByChars_witness :
    ValidString [0x4F, 0x27, 0x42, 0x72, 0x69, 0x65, 0x6E] = true ∧
    EscapeString [0x4F, 0x27, 0x42, 0x72, 0x69, 0x65, 0x6E] =
      escapeByChars [0x4F, 0x27, 0x42, 0x72, 0x69, 0x65, 0x6E] ∧
    EscapeString [0x4F, 0x27, 0x42, 0x72, 0x69, 0x65, 0x6E] =
      [0x4F, 0x5C, 0x27, 0x42, 0x72, 0x69, 0x65, 0x6E] :=
  ⟨by decide, EscapeString_eq_escapeByChars _ (by decide), by decide⟩

/-- C2: for every byte sequence `s` that is not valid UTF-8, `EscapeString s` is
`EscapeString` of `s` with the bytes outside well-formed encoded characters
deleted; the deletion only removes bytes, keeping the order, and the output has
an encoding of U+FFFD exactly where `s` has a well-formed one. -/
theorem EscapeString_of_invalid (s : GoString) (hv : ValidString s = false) :
    EscapeString s = EscapeString (dropMalformed s) ∧
    (dropMalformed s).Sublist s ∧
    (runes (EscapeString s)).count [0xEF, 0xBF, 0xBD] = (runes s).count [0xEF, 0xBF, 0xBD] := by
  refine ⟨?_, dm_sublist s, count_runes_escape [0xEF, 0xBF, 0xBD] rfl (by decide) s⟩
  unfold EscapeString
  simp only [hv, Bool.not_false, if_true, toValidUTF8_eq, valid_dm, Bool.not_true,
    Bool.false_eq_true, if_false]

/-- Witness of C2: the bytes `a`, `0xFF`, `b` are not valid UTF-8 and give `ab`. -/
theorem EscapeString_of_invalid_witness :
    ValidString [0x61, 0xFF, 0x62] = false ∧
    (EscapeString [0x61, 0xFF, 0x62] = EscapeString (dropMalformed [0x61, 0xFF, 0x62]) ∧
      (dropMalformed [0x61, 0xFF, 0x62]).Sublist [0x61, 0xFF, 0x62] ∧
      (runes (EscapeString [0x61, 0xFF, 0x62])).count [0xEF, 0xBF, 0xBD] =
        (runes [0x61, 0xFF, 0x62]).count [0xEF, 0xBF, 0xBD]) ∧
    dropMalformed [0x61, 0xFF, 0x62] = [0x61, 0x62] ∧
    EscapeString [0x61, 0xFF, 0x62] = [0x61, 0x62] :=
  ⟨by decide, EscapeString_of_invalid _ (by decide), by decide, by decide⟩

/-- C3: for every byte sequence `s`, valid UTF-8 or not, `EscapeString s` is
valid UTF-8. -/
theorem EscapeString_valid (s : GoString) : ValidString (EscapeString s) = true :=
  valid_escape s

/-- C4: for every byte sequence `s`, every single-quote byte of `EscapeString s`
is immediately preceded by a backslash byte. -/
theorem EscapeString_quotes_escaped (s : GoString) : QuotesEscaped (EscapeString s) :=
  qe_escape s

/-- C5: a valid UTF-8 string without a single-quote is returned unchanged. -/
theorem EscapeString_id (s : GoString) (hv : ValidString s = true) (hq : 0x27 ∉ s) :
    EscapeString s = s := by
  rw [escape_of_valid s hv, ← repl_eq_escByte]
  exact flatMap_repl_of_not_mem _ _ s hq

/-- Witness of C5: the empty string, and the string `aé`, are returned unchanged. -/
theorem EscapeString_id_witness :
    (ValidString [] = true ∧ 0x27 ∉ ([] : GoString) ∧ EscapeString [] = []) ∧
    (ValidString [0x61, 0xC3, 0xA9] = true ∧ 0x27 ∉ ([0x61, 0xC3, 0xA9] : GoString) ∧
      EscapeString [0x61, 0xC3, 0xA9] = [0x61, 0xC3, 0xA9]) :=
  ⟨⟨by decide, by decide, EscapeString_id [] (by decide) (by decide)⟩,
    ⟨by decide, by decide, EscapeString_id _ (by decide) (by decide)⟩⟩

/-- C6: for a non-empty list, `FormatCategoryIdsArray` gives `[`, the escaped
elements in input order separated by comma and one space, and `]`; for
instance `[a, b]`, `[b, a]` and `[O\'Brien]`. -/
theorem FormatCategoryIdsArray_nonempty :
    (∀ (x : GoString) (xs : List GoString),
      FormatCategoryIdsArray (some (x :: xs)) =
        [0x5B] ++ EscapeString x ++ xs.flatMap (fun y => [0x2C, 0x20] ++ EscapeString y) ++
          [0x5D]) ∧
    FormatCategoryIdsArray (some [[0x61], [0x62]]) = [0x5B, 0x61, 0x2C, 0x20, 0x62, 0x5D] ∧
    FormatCategoryIdsArray (some [[0x62], [0x61]]) = [0x5B, 0x62, 0x2C, 0x20, 0x61, 0x5D] ∧
    FormatCategoryIdsArray (some [[0x4F, 0x27, 0x42, 0x72, 0x69, 0x65, 0x6E]]) =
      [0x5B, 0x4F, 0x5C, 0x27, 0x42, 0x72, 0x69, 0x65, 0x6E, 0x5D] :=
  ⟨format_cons, by decide, by decide, by decide⟩

/-- C7: `FormatCategoryIdsArray` returns the two-character string `[]` both for
the empty list and for the `nil` list. -/
theorem FormatCategoryIdsArray_empty :
    FormatCategoryIdsArray (some []) = [0x5B, 0x5D] ∧
    FormatCategoryIdsArray none = [0x5B, 0x5D] :=
  ⟨rfl, rfl⟩

/-- C8: for every list of byte strings, `nil` and empty included, the output of
`FormatCategoryIdsArray` is valid UTF-8 and each of its single-quote bytes is
immediately preceded by a backslash byte. -/
theorem FormatCategoryIdsArray_good (ids : StringSlice) :
    ValidString (FormatCategoryIdsArray ids) = true ∧
      QuotesEscaped (FormatCategoryIdsArray ids) :=
  good_format ids

/-- C9: `SafeCategoryIds` returns the empty list for `nil`, returns every
non-nil list unchanged, and never returns `nil`. -/
theorem SafeCategoryIds_spec :
    SafeCategoryIds none = some [] ∧
    (∀ l : List GoString, SafeCategoryIds (some l) = some l) ∧
    (∀ ids : StringSlice, SafeCategoryIds ids ≠ none) ∧
    SafeCategoryIds (some [[0x78]]) = some [[0x78]] := by
  refine ⟨rfl, fun _ => rfl, ?_, rfl⟩
  intro ids
  cases ids <;> simp [SafeCategoryIds]

/-- C10: escaping is not idempotent: when `s` contains a single-quote, escaping
twice differs from escaping once. -/
theorem EscapeString_not_idempotent (s : GoString) (hq : 0x27 ∈ s) :
    EscapeString (EscapeString s) ≠ EscapeString s := by
  intro e
  have hlen := congrArg List.length e
  rw [escape_of_valid _ (valid_escape s), length_flatMap_escByte] at hlen
  have hc : (EscapeString s).count 0x27 = s.count 0x27 := by
    rw [escape_eq, count_flatMap_escByte, if_neg (by decide), count_dm 0x27 (by decide)]
    rfl
  have hpos : 0 < s.count 0x27 := List.count_pos_iff.mpr hq
  omega

/-- Witness of C10: the string `'` gives `\'` after one application and `\\'`
after two. -/
theorem EscapeString_not_idempotent_witness :
    0x27 ∈ ([0x27] : GoString) ∧
    EscapeString (EscapeString [0x27]) ≠ EscapeString [0x27] ∧
    EscapeString [0x27] = [0x5C, 0x27] ∧
    EscapeString (EscapeString [0x27]) = [0x5C, 0x5C, 0x27] :=
  ⟨by decide, EscapeString_not_idempotent [0x27] (by decide), by decide, by decide⟩

/-- C11: pre-existing backslashes are not doubled: `EscapeString s` has as many
backslash bytes as `s` has backslash and single-quote bytes together, and as
many single-quote bytes as `s`; the repair by `ToValidUTF8` changes neither
count. -/
theorem EscapeString_counts (s : GoString) :
    (EscapeString s).count 0x5C = s.count 0x5C + s.count 0x27 ∧
    (EscapeString s).count 0x27 = s.count 0x27 ∧
    (ToValidUTF8 s []).count 0x5C = s.count 0x5C ∧
    (ToValidUTF8 s []).count 0x27 = s.count 0x27 := by
  refine ⟨?_, ?_, ?_, ?_⟩
  · rw [count_escape s 0x5C (by decide), if_pos rfl]
  · rw [count_escape s 0x27 (by decide), if_neg (by decide), Nat.add_zero]
  · rw [toValidUTF8_eq, count_dm 0x5C (by decide)]
  · rw [toValidUTF8_eq, count_dm 0x27 (by decide)]

/-- C12: backslashes are not escaped: when the single-quote at position `i` of a
valid UTF-8 string `s` is preceded by a maximal run of exactly `k` backslashes,
the corresponding single-quote of `EscapeString s` is preceded by a maximal run
of exactly `k + 1` backslashes. -/
theorem EscapeString_backslash_run (s : GoString) (i k : Nat) (hv : ValidString s = true)
    (hq : s[i]? = some 0x27) (hk : backslashRun s i = k) :
    (EscapeString s)[quoteImage s i]? = some 0x27 ∧
    ((EscapeString s).take (quoteImage s i)).count 0x27 = (s.take i).count 0x27 ∧
    backslashRun (EscapeString s) (quoteImage s i) = k + 1 := by
  have hout := flatMap_escByte_at_quote s i hq
  have hj := quoteImage_eq s i hq
  have htake : (EscapeString s).take (quoteImage s i) = (s.take i).flatMap escByte ++ [0x5C] := by
    rw [escape_of_valid s hv, hout, hj]
    exact List.take_left' rfl
  refine ⟨?_, ?_, ?_⟩
  · rw [escape_of_valid s hv, hout, hj, List.getElem?_append_right (le_refl _)]
    simp
  · rw [htake, List.count_append, count_flatMap_escByte, if_neg (by decide)]
    simp
  · unfold backslashRun at hk ⊢
    rw [htake, List.reverse_append]
    simp only [List.reverse_cons, List.reverse_nil, List.nil_append, List.singleton_append,
      List.takeWhile_cons, decide_True, if_true, List.length_cons, trailing_flatMap_escByte, hk]

/-- Witness of C12: the input backslash, single-quote gives backslash, backslash,
single-quote, whose single-quote is preceded by two backslashes, an even number. -/
theorem EscapeString_backslash_run_witness :
    (ValidString [0x5C, 0x27] = true ∧ ([0x5C, 0x27] : GoString)[1]? = some 0x27 ∧
      backslashRun [0x5C, 0x27] 1 = 1) ∧
    ((EscapeString [0x5C, 0x27])[quoteImage [0x5C, 0x27] 1]? = some 0x27 ∧
      ((EscapeString [0x5C, 0x27]).take (quoteImage [0x5C, 0x27] 1)).count 0x27 =
        (([0x5C, 0x27] : GoString).take 1).count 0x27 ∧
      backslashRun (EscapeString [0x5C, 0x27]) (quoteImage [0x5C, 0x27] 1) = 1 + 1) ∧
    EscapeString [0x5C, 0x27] = [0x5C, 0x5C, 0x27] ∧
    quoteImage [0x5C, 0x27] 1 = 2 ∧
    backslashRun (EscapeString [0x5C, 0x27]) 2 % 2 = 0 :=
  ⟨⟨by decide, by decide, by decide⟩,
    EscapeString_backslash_run [0x5C, 0x27] 1 1 (by decide) (by decide) (by decide),
    by decide, by decide, by decide⟩

/-- C13: `EscapeString` is reversible, hence injective, on valid UTF-8: replacing
every backslash, single-quote of `EscapeString s` by a single-quote gives `s`
back, so two valid strings with the same result are equal. -/
theorem EscapeString_injective (s t : GoString) (hs : ValidString s = true)
    (ht : ValidString t = true) :
    unescape (EscapeString s) = s ∧ (EscapeString s = EscapeString t → s = t) := by
  have key : ∀ u : GoString, ValidString u = true → unescape (EscapeString u) = u := by
    intro u hu
    rw [escape_of_valid u hu, unescape_flatMap_escByte]
  refine ⟨key s hs, ?_⟩
  intro e
  rw [← key s hs, ← key t ht, e]

/-- Witness of C13: the strings backslash, single-quote and single-quote are
valid, the first is recovered from its escaping, and their escapings differ. -/
theorem EscapeString_injective_witness :
    (ValidString [0x5C, 0x27] = true ∧ ValidString [0x27] = true) ∧
    (unescape (EscapeString [0x5C, 0x27]) = [0x5C, 0x27] ∧
      (EscapeString [0x5C, 0x27] = EscapeString [0x27] → ([0x5C, 0x27] : GoString) = [0x27])) ∧
    EscapeString [0x5C, 0x27] ≠ EscapeString [0x27] :=
  ⟨⟨by decide, by decide⟩, EscapeString_injective [0x5C, 0x27] [0x27] (by decide) (by decide),
    by decide⟩

/-- C14: `FormatCategoryIdsArray` is not injective: the list with the one element
empty string and the empty list both give `[]`, and the list with the one
element `a, b` and the list of `a` and `b` both give `[a, b]`. -/
theorem FormatCategoryIdsArray_not_injective :
    FormatCategoryIdsArray (some [[]]) = [0x5B, 0x5D] ∧
    FormatCategoryIdsArray (some []) = [0x5B, 0x5D] ∧
    FormatCategoryIdsArray (some [[0x61, 0x2C, 0x20, 0x62]]) =
      [0x5B, 0x61, 0x2C, 0x20, 0x62, 0x5D] ∧
    FormatCategoryIdsArray (some [[0x61], [0x62]]) = [0x5B, 0x61, 0x2C, 0x20, 0x62, 0x5D] ∧
    (∃ ids : StringSlice, FormatCategoryIdsArray ids = [0x5B, 0x5D] ∧ ids.len ≠ 0) ∧
    (∃ idsA idsB : StringSlice,
      FormatCategoryIdsArray idsA = FormatCategoryIdsArray idsB ∧ idsA.len ≠ idsB.len) ∧
    ¬ Function.Injective FormatCategoryIdsArray := by
  refine ⟨by decide, by decide, by decide, by decide, ⟨some [[]], by decide, by decide⟩,
    ⟨some [[0x61, 0x2C, 0x20, 0x62]], some [[0x61], [0x62]], by decide, by decide⟩, ?_⟩
  intro hinj
  have h : (some [[]] : StringSlice) = some [] := hinj (by decide)
  exact absurd h (by decide)

/-- C15: `EscapeString` distributes over the concatenation of valid UTF-8 strings;
it does not for the invalid strings of the single byte `0xC3` and of the single
byte `0xA9`, whose concatenation is the character U+00E9. -/
theorem EscapeString_append (a b : GoString) (ha : ValidString a = true)
    (hb : ValidString b = true) :
    EscapeString (a ++ b) = EscapeString a ++ EscapeString b ∧
    EscapeString [0xC3] ++ EscapeString [0xA9] = [] ∧
    EscapeString ([0xC3] ++ [0xA9]) = [0xC3, 0xA9] := by
  refine ⟨?_, by decide, by decide⟩
  have hab : ValidString (a ++ b) = true := by rw [valid_append a b ha]; exact hb
  rw [escape_of_valid _ hab, escape_of_valid a ha, escape_of_valid b hb, List.flatMap_append]

/-- Witness of C15: the valid strings `a'` and `é'`. -/
theorem EscapeString_append_witness :
    (ValidString [0x61, 0x27] = true ∧ ValidString [0xC3, 0xA9, 0x27] = true) ∧
    (EscapeString ([0x61, 0x27] ++ [0xC3, 0xA9, 0x27]) =
        EscapeString [0x61, 0x27] ++ EscapeString [0xC3, 0xA9, 0x27] ∧
      EscapeString [0xC3] ++ EscapeString [0xA9] = [] ∧
      EscapeString ([0xC3] ++ [0xA9]) = [0xC3, 0xA9]) ∧
    EscapeString ([0x61, 0x27] ++ [0xC3, 0xA9, 0x27]) =
      [0x61, 0x5C, 0x27, 0xC3, 0xA9, 0x5C, 0x27] :=
  ⟨⟨by decide, by decide⟩, EscapeString_append _ _ (by decide) (by decide), by decide⟩

/-- C16: on a byte sequence without a single-quote, valid UTF-8 or not,
`EscapeString` is idempotent: the first application gives valid text without a
single-quote, which the second leaves unchanged. -/
theorem EscapeString_idempotent_of_no_quote (s : GoString) (hq : 0x27 ∉ s) :
    EscapeString (EscapeString s) = EscapeString s ∧
    ValidString (EscapeString s) = true ∧ 0x27 ∉ EscapeString s := by
  have hdm : 0x27 ∉ dropMalformed s := fun h => hq ((dm_sublist s).subset h)
  have h1 : EscapeString s = dropMalformed s := by
    rw [escape_eq, flatMap_escByte_of_not_mem _ hdm]
  refine ⟨?_, valid_escape s, by rw [h1]; exact hdm⟩
  rw [h1, escape_of_valid _ (valid_dm s), flatMap_escByte_of_not_mem _ hdm]

/-- Witness of C16: the bytes `a`, `0xFF`, backslash, `b` are not valid UTF-8 and
give `a`, backslash, `b` after one application and after two. -/
theorem EscapeString_idempotent_of_no_quote_witness :
    0x27 ∉ ([0x61, 0xFF, 0x5C, 0x62] : GoString) ∧
    (EscapeString (EscapeString [0x61, 0xFF, 0x5C, 0x62]) = EscapeString [0x61, 0xFF, 0x5C, 0x62] ∧
      ValidString (EscapeString [0x61, 0xFF, 0x5C, 0x62]) = true ∧
      0x27 ∉ EscapeString [0x61, 0xFF, 0x5C, 0x62]) ∧
    ValidString [0x61, 0xFF, 0x5C, 0x62] = false ∧
    EscapeString [0x61, 0xFF, 0x5C, 0x62] = [0x61, 0x5C, 0x62] :=
  ⟨by decide, EscapeString_idempotent_of_no_quote _ (by decide), by decide, by decide⟩

end TodoList
